import Mathlib

/-!
Verification of the blockchain simulation in src/blockchain.c.

The C program is embedded shallowly:

* Machine integers are modelled as `Nat` (all counters, indices and nonces in
  the program stay small and non-negative) and `Int` for event types; the djb2
  accumulator, an `unsigned long`, is reduced modulo `2 ^ 64` at every step.
* C strings are Lean `String`s; all strings the program hashes are ASCII, so
  iterating `Char.toNat` over the characters agrees with iterating over bytes.
* The chain is a singly linked list from `genesis` to `last_block`; we model
  the list of blocks reachable from genesis as a `List Block`.  The C field
  `last_block` is an alias of the final node of that walk in every operation
  of the program, so the tip is modelled as the last element of the list.
* Uninitialised string fields of a freshly created block (`merkle_root` and
  `hash` are not set by `create_block`) are modelled as `""`; the program
  never reads them before writing them.
* Wall-clock reads (`time(NULL)`, `strftime`), `rand()` draws, allocation
  failures and the scheduling of other threads during the windows where a
  chain lock is released are nondeterministic inputs of the C code; they are
  passed to the Lean functions as explicit oracle parameters (timestamps,
  `Bool` allocation oracles, mining outcomes, and interference functions
  standing for the effect of other threads while the lock is down).
-/

namespace BC

/-- HASH_SIZE from the source. -/
def HASH_SIZE : Nat := 64

/-- MAX_EVENTS from the source. -/
def MAX_EVENTS : Nat := 100

/-- DIFFICULTY from the source. -/
def DIFFICULTY : Nat := 2

/-- Modulus of the 64-bit unsigned accumulator used by hash_data. -/
def UINT64 : Nat := 18446744073709551616

/-- The hex digit table of printf %x. -/
def hexDigit (n : Nat) : Char :=
  "0123456789abcdef".toList.getD n '0'

/-- The 16 characters printed by sprintf "%016lx" for a value below 2 ^ 64:
zero-padded lowercase hexadecimal, most significant digit first. -/
def hexPad16 (n : Nat) : List Char :=
  [hexDigit (n / 16 ^ 15 % 16), hexDigit (n / 16 ^ 14 % 16),
   hexDigit (n / 16 ^ 13 % 16), hexDigit (n / 16 ^ 12 % 16),
   hexDigit (n / 16 ^ 11 % 16), hexDigit (n / 16 ^ 10 % 16),
   hexDigit (n / 16 ^ 9 % 16), hexDigit (n / 16 ^ 8 % 16),
   hexDigit (n / 16 ^ 7 % 16), hexDigit (n / 16 ^ 6 % 16),
   hexDigit (n / 16 ^ 5 % 16), hexDigit (n / 16 ^ 4 % 16),
   hexDigit (n / 16 ^ 3 % 16), hexDigit (n / 16 ^ 2 % 16),
   hexDigit (n / 16 ^ 1 % 16), hexDigit (n / 16 ^ 0 % 16)]

/-- The djb2 loop of hash_data: hash = hash * 33 + c on unsigned long. -/
def djb2Chars : List Char → Nat → Nat
  | [], h => h
  | c :: cs, h => djb2Chars cs ((h * 33 + c.toNat) % UINT64)

/-- The 64-character all-zero digest, used for the genesis previous_hash and
for the merkle root of an empty block. -/
def zeros64 : String := String.mk (List.replicate 64 '0')

/-- hash_data from the source: djb2 over the input, printed as 16 hex
characters and right-padded with the character 0 to HASH_SIZE. -/
def hash_data (s : String) : String :=
  String.mk (hexPad16 (djb2Chars s.toList 5381) ++ List.replicate 48 '0')

/-- Event from the source: type, data, timestamp, hash, is_valid. -/
structure Event where
  type : Int
  data : String
  timestamp : String
  hash : String
  is_valid : Bool
deriving DecidableEq, Repr

/-- Block from the source.  `events.length` plays the role of event_count;
the `next` pointer is represented by the position of the block in the list of
blocks of its chain. -/
structure Block where
  index : Nat
  timestamp : Int
  previous_hash : String
  events : List Event
  event_capacity : Nat
  nonce : Nat
  merkle_root : String
  hash : String
deriving DecidableEq, Repr

/-- Blockchain from the source.  `blocks` is the walk from genesis via next;
the C field last_block is an alias of `blocks.getLast` in every reachable
state, so it is not duplicated here. -/
structure Blockchain where
  blocks : List Block
  block_count : Nat
  current_mining_block : Block
deriving DecidableEq, Repr

/-- Node from the source (the thread handle is not modelled). -/
structure NodeState where
  id : Nat
  chain : Blockchain
  is_mining : Bool
  is_malicious : Bool
  is_active : Bool
deriving DecidableEq, Repr

/-- A placeholder block used as the default of list lookups that the C code
performs on pointers it knows to be non-null. -/
def dummyBlock : Block :=
  { index := 0, timestamp := 0, previous_hash := "", events := [],
    event_capacity := 0, nonce := 0, merkle_root := "", hash := "" }

/-- The last committed block: the C last_block pointer. -/
def chainTip (c : Blockchain) : Block :=
  c.blocks.getLastD dummyBlock

/-- hash_event from the source: digest of "%d%s%s" of type, data, timestamp. -/
def hash_event (e : Event) : Event :=
  { e with hash := hash_data (toString e.type ++ e.data ++ e.timestamp) }

/-- The string hashed by hash_block: "%d%ld%s%s%d" of index, timestamp,
previous_hash, merkle_root, nonce. -/
def blockHashOf (b : Block) : String :=
  hash_data (toString b.index ++ toString b.timestamp ++ b.previous_hash
    ++ b.merkle_root ++ toString b.nonce)

/-- hash_block from the source. -/
def hash_block (b : Block) : Block :=
  { b with hash := blockHashOf b }

/-- build_tree from the source, returning the root hash of the tree built
over hashes[start..end] (the C function also materialises the inner nodes,
but only the root hash is ever read).  The range recursion of the C code is
made structural with a fuel argument; `build_tree` below supplies enough fuel
for the whole range, so the fuel never runs out on the ranges the program
uses. -/
def build_tree_fuel : Nat → List String → Nat → Nat → Option String
  | 0, _, _, _ => none
  | fuel + 1, hs, s, e =>
    if e < s then none
    else if s = e then some (hs.getD s "")
    else
      let mid := (s + e) / 2
      match build_tree_fuel fuel hs s mid with
      | none => none
      | some l =>
        let r := (build_tree_fuel fuel hs (mid + 1) e).getD l
        some (hash_data (l ++ r))

/-- build_tree over the range [s, e]. -/
def build_tree (hs : List String) (s e : Nat) : Option String :=
  build_tree_fuel (e + 1 - s) hs s e

/-- calculate_merkle_root from the source, as a function of the leaf hashes:
an empty block gets the all-zero root, otherwise the root of build_tree over
0..event_count-1. -/
def merkleRootOf (hs : List String) : String :=
  if hs.length = 0 then zeros64
  else (build_tree hs 0 (hs.length - 1)).getD ""

/-- calculate_merkle_root from the source. -/
def calculate_merkle_root (b : Block) : Block :=
  { b with merkle_root := merkleRootOf (b.events.map (fun e => e.hash)) }

/-- create_block from the source; `ts` is the time(NULL) read.  merkle_root
and hash are left uninitialised by the C code, modelled as "". -/
def create_block (index : Nat) (prev_hash : String) (ts : Int) : Block :=
  { index := index, timestamp := ts, previous_hash := prev_hash,
    events := [], event_capacity := 10, nonce := 0,
    merkle_root := "", hash := "" }

/-- clone_block from the source: a deep copy of every field; the next pointer
of the clone is null, which in the list model just means the clone is a
standalone value. -/
def clone_block (source : Block) : Block :=
  { index := source.index, timestamp := source.timestamp,
    previous_hash := source.previous_hash, merkle_root := source.merkle_root,
    hash := source.hash, nonce := source.nonce,
    event_capacity := source.event_capacity, events := source.events }

/-- is_valid_proof from the source: the first `difficulty` characters of the
block hash are the character 0.  (The C loop reads hash[i] for i below
difficulty; every hash in the program has HASH_SIZE characters.) -/
def is_valid_proof (b : Block) (difficulty : Nat) : Bool :=
  decide (b.hash.toList.take difficulty = List.replicate difficulty '0')

/-- C strncmp on character lists, where the end of a list stands for the
terminating NUL (no string hashed by the program contains NUL). -/
def strncmpChars : List Char → List Char → Nat → Int
  | _, _, 0 => 0
  | [], [], _ + 1 => 0
  | [], b :: _, _ + 1 => 0 - (b.toNat : Int)
  | a :: _, [], _ + 1 => (a.toNat : Int)
  | a :: as, b :: bs, n + 1 =>
    if a = b then strncmpChars as bs n
    else (a.toNat : Int) - (b.toNat : Int)

/-- The target string built by mine_block: difficulty zeros then f up to
HASH_SIZE. -/
def powTarget (difficulty : Nat) : List Char :=
  List.replicate difficulty '0' ++ List.replicate (HASH_SIZE - difficulty) 'f'

/-- The state of the candidate block when mine_block stops at nonce `n`: the
merkle root is recomputed once at entry, the nonce is `n`, and the hash is
the block digest at that nonce. -/
def mineFinalize (b : Block) (n : Nat) : Block :=
  hash_block { calculate_merkle_root b with nonce := n }

/-- The success test of the main mining loop:
strncmp(block->hash, target, difficulty) <= 0.  mine_block can also return
success from the simulated lucky-find branch, which performs no such test, so
a successful mine_block ends at `mineFinalize b n` for some nonce `n` that
need not satisfy this test. -/
def mineNormalHit (b : Block) (n : Nat) : Bool :=
  decide (strncmpChars (mineFinalize b n).hash.toList (powTarget DIFFICULTY)
    DIFFICULTY ≤ 0)

/-- validate_event from the source: type 1 is considered valid, and so is
every other type. -/
def validate_event (e : Event) : Bool :=
  if e.type = 1 then true else true

/-- validate_block_events from the source. -/
def validate_block_events (b : Block) : Bool :=
  b.events.all (fun e => validate_event e)

/-- add_event from the source.  `ts` is the strftime of the append moment and
`allocOk` is the outcome of the realloc when one is attempted.  Returns the
updated block and the C return value (1 success, 0 failure).  Note that the C
code doubles event_capacity before attempting the realloc, so a failed
realloc leaves the capacity field doubled. -/
def add_event (b : Block) (type : Int) (data : String) (ts : String)
    (allocOk : Bool) : Block × Int :=
  if b.events.length ≥ MAX_EVENTS then (b, 0)
  else
    let needRealloc := b.events.length ≥ b.event_capacity
    let b1 := if needRealloc then
        { b with event_capacity := min (b.event_capacity * 2) MAX_EVENTS }
      else b
    if needRealloc ∧ allocOk = false then (b1, 0)
    else
      let data255 := String.mk (data.toList.take 255)
      let ev0 : Event :=
        { type := type, data := data255, timestamp := ts, hash := "",
          is_valid := false }
      let ev1 := hash_event ev0
      let ev := { ev1 with is_valid := validate_event ev1 }
      let b2 := { b1 with events := b1.events ++ [ev] }
      (hash_block (calculate_merkle_root b2), 1)

/-- create_blockchain from the source; ts0 and ts1 are the time(NULL) reads
for genesis and the first mining block. -/
def create_blockchain (ts0 ts1 : Int) : Blockchain :=
  let genesis := hash_block (calculate_merkle_root (create_block 0 zeros64 ts0))
  { blocks := [genesis], block_count := 1,
    current_mining_block := create_block 1 genesis.hash ts1 }

/-- confirm_block from the source: finalize the staging block (merkle root
and hash, no mining), splice it as the tip, create a fresh staging block. -/
def confirm_block (c : Blockchain) (ts : Int) : Blockchain :=
  let new_block := hash_block (calculate_merkle_root c.current_mining_block)
  { blocks := c.blocks ++ [new_block], block_count := c.block_count + 1,
    current_mining_block := create_block (c.block_count + 1) new_block.hash ts }

/-- add_blockchain_event from the source.  The oracles: `ts1`/`a1` feed the
first add_event, `tsS` the creation time of the replacement staging block,
`mineRes` is the outcome of mine_block on the detached block (`none` is the
shutdown failure; a success is the detached block as left by the miner),
`i1` is the action of other threads in the lock-free window around mining,
`i2` the action of other threads in the lock-free window between the commit
race and the retry, and `ts2`/`a2` feed the retry add_event. -/
def add_blockchain_event (c : Blockchain) (type : Int) (data : String)
    (ts1 : String) (a1 : Bool) (tsS : Int) (mineRes : Option Block)
    (i1 i2 : Blockchain → Blockchain) (ts2 : String) (a2 : Bool) :
    Blockchain × Int :=
  let first := add_event c.current_mining_block type data ts1 a1
  if first.2 = 0 then
    let c1 : Blockchain :=
      { c with current_mining_block :=
          create_block c.block_count (chainTip c).hash tsS }
    match mineRes with
    | some mined =>
      let c2 := i1 c1
      let c3 :=
        if (chainTip c2).hash = mined.previous_hash then
          { c2 with
            blocks := c2.blocks ++ [mined]
            block_count := c2.block_count + 1 }
        else c2
      let c4 := i2 c3
      let fin := add_event c4.current_mining_block type data ts2 a2
      ({ c4 with current_mining_block := fin.1 }, fin.2)
    | none =>
      let c2 := i1 c1
      let fin := add_event c2.current_mining_block type data ts2 a2
      ({ c2 with current_mining_block := fin.1 }, fin.2)
  else ({ c with current_mining_block := first.1 }, first.2)

/-- The receiver-side walk of broadcast_block: find the first block whose
hash equals the previous_hash of the incoming block and overwrite its next
pointer with the clone; the blocks after the match drop out of the walk. -/
def linkAfterMatch : List Block → String → Block → Option (List Block)
  | [], _, _ => none
  | c :: rest, p, nb =>
    if c.hash = p then some (c :: [nb])
    else
      match linkAfterMatch rest p nb with
      | none => none
      | some l => some (c :: l)

/-- The body of the broadcast_block loop for one receiver node; `ts` is the
creation time of the replacement staging block. -/
def broadcast_step (r : NodeState) (B : Block) (sender_id : Nat) (ts : Int) :
    NodeState :=
  if r.id ≠ sender_id ∧ r.is_active = true then
    if is_valid_proof B DIFFICULTY = true ∧ validate_block_events B = true then
      match linkAfterMatch r.chain.blocks B.previous_hash (clone_block B) with
      | none => r
      | some newBlocks =>
        if B.index + 1 > r.chain.block_count then
          { r with chain :=
              { blocks := newBlocks, block_count := B.index + 1,
                current_mining_block :=
                  create_block (B.index + 1) (clone_block B).hash ts } }
        else r
    else r
  else r

/-- broadcast_block from the source: every node of the network receives the
block through `broadcast_step`. -/
def broadcast_block (ns : List NodeState) (B : Block) (sender_id : Nat)
    (ts : Int) : List NodeState :=
  ns.map (fun r => broadcast_step r B sender_id ts)

/-- The commit step of node_thread after a successful mine of `mined`: if the
tip has not moved, splice the mined clone and install a fresh staging block
on it, otherwise discard. -/
def worker_commit (c : Blockchain) (mined : Block) (ts : Int) : Blockchain :=
  if (chainTip c).hash = mined.previous_hash then
    { blocks := c.blocks ++ [mined], block_count := c.block_count + 1,
      current_mining_block := create_block (c.block_count + 1) mined.hash ts }
  else c

/-- The chain replacement of synchronize_blockchain once the best peer is
chosen: clone the peer chain block by block (counting the clones into
block_count) and install a fresh staging block on the new tip. -/
def synchronize_adopt (peer : Blockchain) (ts : Int) : Blockchain :=
  let bs := peer.blocks.map clone_block
  { blocks := bs, block_count := bs.length,
    current_mining_block :=
      create_block bs.length (bs.getLastD dummyBlock).hash ts }

/-- The fraudulent payload written by tamper_with_blockchain. -/
def fraudData : String :=
  "\x7b\"from\":\"System\",\"to\":\"Hacker\",\"amount\":1000\x7d"

/-- tamper_with_blockchain from the source: on a malicious active node, if
the first non-genesis block exists and its first event has type 1, overwrite
that event data with the fraudulent payload and recompute only that event
hash. -/
def tamper_with_blockchain (n : NodeState) : NodeState :=
  if n.is_malicious = true ∧ n.is_active = true then
    match n.chain.blocks with
    | g :: b :: rest =>
      match b.events with
      | e0 :: es =>
        if e0.type = 1 then
          { n with chain :=
              { n.chain with blocks :=
                  g :: { b with events := hash_event { e0 with data := fraudData } :: es } :: rest } }
        else n
      | [] => n
    | _ => n
  else n

/-- Whether a chain contains a block with the given hash (the inner walk of
check_consensus). -/
def chainHasBlockHash (c : Blockchain) (h : String) : Bool :=
  c.blocks.any (fun b => b.hash = h)

/-- check_consensus from the source.  The C code compares the float quotient
nodes_with_block / total_active against 0.51; for the at most MAX_NODES = 10
active nodes of the program the float comparison coincides with the exact
rational one, and the 0/0 case (NaN in C, which compares false) coincides
with the rational division-by-zero convention, so the comparison is modelled
over the rationals. -/
def check_consensus (ns : List NodeState) (B : Block) : Bool :=
  let total_active := ns.countP (fun n => n.is_active)
  let nodes_with_block :=
    ns.countP (fun n => n.is_active && chainHasBlockHash n.chain B.hash)
  decide (((nodes_with_block : ℚ) / (total_active : ℚ)) ≥ 51 / 100)

/-- The walk invariant of the spec: the walk from genesis is non-empty and
visits exactly block_count blocks (its last element is the tip by the
definition of `chainTip`). -/
def WalkInv (c : Blockchain) : Prop :=
  c.blocks ≠ [] ∧ c.blocks.length = c.block_count

instance (c : Blockchain) : Decidable (WalkInv c) := by
  unfold WalkInv
  infer_instance

/-- Modelled from the spec: the recursive-midpoint merkle root over a list of
leaf digests, following the words of the claim.  A single leaf is its own
root; otherwise the range splits at mid = (start + end) / 2, an absent right
half is replaced by a duplicate of the left root, and an inner digest is the
digest of the concatenation of the two child digests.  The empty list gets
the all-zero sentinel. -/
def merkleSpec (ds : List String) : String :=
  if h0 : ds.length = 0 then zeros64
  else if h1 : ds.length = 1 then ds.getD 0 ""
  else
    let mid := (ds.length - 1) / 2
    let l := merkleSpec (ds.take (mid + 1))
    let rs := ds.drop (mid + 1)
    let r := if rs.isEmpty then l else merkleSpec rs
    hash_data (l ++ r)
termination_by ds.length
decreasing_by
  · simp only [List.length_take]
    omega
  · simp only [List.length_drop]
    omega

/-- The adoption condition of broadcast_block at one receiver, in the words
of the claim: proof of work at the network difficulty, event validation, a
block of the receiver chain carrying the previous_hash of the incoming
block, and the incoming block advancing block_count. -/
def adoptCond (r : NodeState) (B : Block) : Prop :=
  is_valid_proof B DIFFICULTY = true
  ∧ validate_block_events B = true
  ∧ (∃ C ∈ r.chain.blocks, C.hash = B.previous_hash)
  ∧ B.index + 1 > r.chain.block_count

instance (r : NodeState) (B : Block) : Decidable (adoptCond r B) := by
  unfold adoptCond
  infer_instance

/-- The tamper condition, in the words of the claim: the node is malicious
and active, its chain has a first non-genesis block, and that block has a
first event of type 1. -/
def tamperCond (n : NodeState) : Prop :=
  n.is_malicious = true ∧ n.is_active = true ∧
  match n.chain.blocks with
  | _ :: b :: _ =>
    match b.events with
    | e0 :: _ => e0.type = 1
    | [] => False
  | _ => False

set_option maxRecDepth 6000

/-! Concrete fixtures used by witnesses and counterexamples.  All of them are
built with the operations of the program; the integer arguments stand for the
time(NULL) and strftime reads of the corresponding C calls. -/

/-- A concrete event as add_event would build it (type 1, data "a",
timestamp "t", digest computed, validated). -/
def eFix : Event :=
  let e0 : Event :=
    { type := 1, data := "a", timestamp := "t", hash := "", is_valid := false }
  let e := hash_event e0
  { e with is_valid := validate_event e }

/-- The genesis block of a chain created at time 0. -/
def genFix : Block :=
  hash_block (calculate_merkle_root (create_block 0 zeros64 0))

/-- A proof-of-work valid block of index 1 on top of the genesis fixture
(the timestamp 232 makes the digest at nonce 0 start with two zeros). -/
def b1Fix : Block := mineFinalize (create_block 1 genFix.hash 232) 0

/-- A proof-of-work valid block of index 2 on top of `b1Fix`. -/
def b2Fix : Block := mineFinalize (create_block 2 b1Fix.hash 117) 0

/-- A proof-of-work valid block of index 3 whose parent is `b1Fix`: the block
a miner that diverged after `b1Fix` would broadcast. -/
def bXFix : Block := mineFinalize (create_block 3 b1Fix.hash 117) 0

/-- A staging block holding MAX_EVENTS events on top of the genesis fixture,
with its merkle root and hash computed as after the hundredth append. -/
def stagFull : Block :=
  hash_block (calculate_merkle_root
    { create_block 1 genFix.hash 3 with
      events := List.replicate 100 eFix, event_capacity := 100 })

/-- A chain of one committed block whose staging block is full. -/
def chainFull : Blockchain :=
  { blocks := [genFix], block_count := 1, current_mining_block := stagFull }

/-- A receiver chain of three committed blocks. -/
def chain7 : Blockchain :=
  { blocks := [genFix, b1Fix, b2Fix], block_count := 3,
    current_mining_block := create_block 3 b2Fix.hash 9 }

/-- A receiver node holding `chain7`. -/
def r7 : NodeState :=
  { id := 2, chain := chain7, is_mining := true, is_malicious := false,
    is_active := true }

/-- A committed block holding the single event `eFix`, with consistent merkle
root and hash. -/
def bOne : Block :=
  hash_block (calculate_merkle_root
    { create_block 1 genFix.hash 2 with events := [eFix] })

/-- The block `bOne` after the tamper routine rewrote its first event: the
event data and digest changed, the stored merkle root and hash did not. -/
def bTam : Block :=
  { bOne with events := [hash_event { eFix with data := fraudData }] }

/-- A validator node holding a freshly created chain, used as a broadcast
receiver. -/
def rW : NodeState :=
  { id := 1,
    chain := { blocks := [genFix], block_count := 1,
               current_mining_block := create_block 1 genFix.hash 1 },
    is_mining := false, is_malicious := false, is_active := true }

/-- A malicious active node whose chain has `bOne` (first event of type 1)
as its first non-genesis block. -/
def nodeM : NodeState :=
  { id := 3,
    chain := { blocks := [genFix, bOne], block_count := 2,
               current_mining_block := create_block 2 bOne.hash 8 },
    is_mining := true, is_malicious := true, is_active := true }

/-- The run of add_blockchain_event on the full staging block of `chainFull`:
first append fails with BlockFull, the detached block is mined (stopping at
nonce 0) with no interference from other threads, the commit race is won, and
the retry append succeeds. -/
def c6run : Blockchain × Int :=
  add_blockchain_event chainFull 1 "a" "t" true 5
    (some (mineFinalize stagFull 0)) id id "u" true

/-- Claim C1, counterexample: the block committed by confirm_block on a fresh
chain is a non-genesis block of the chain (index 1, the second of two walked
blocks) and does not satisfy the proof-of-work predicate at difficulty
DIFFICULTY = 2, refuting the claim that every committed block beyond genesis
satisfies it on every commit path. -/
theorem c1_confirm_counterexample :
    (chainTip (confirm_block (create_blockchain 0 0) 0)).index = 1
    ∧ chainTip (confirm_block (create_blockchain 0 0) 0)
        ∈ (confirm_block (create_blockchain 0 0) 0).blocks
    ∧ (confirm_block (create_blockchain 0 0) 0).block_count = 2
    ∧ is_valid_proof (chainTip (confirm_block (create_blockchain 0 0) 0))
        DIFFICULTY = false := by
  decide

/-- Claim C6, code bug witness: on the BlockFull recovery path of
add_blockchain_event, when the mined detached block wins the commit race, the
staging block installed before mining is left with index = block_count - 1
and previous_hash equal to the hash of the old tip instead of the new one:
the staging invariant of the claim is broken by the very operation that is
required to preserve it. -/
theorem c6_staging_invariant_break :
    (add_event stagFull 1 "a" "t" true).2 = 0
    ∧ c6run.1.block_count = 2
    ∧ c6run.1.current_mining_block.index = 1
    ∧ c6run.1.current_mining_block.previous_hash = genFix.hash := by
  decide

/-- Claim C7, counterexample: a receiver whose chain satisfies the walk
invariant (three walked blocks, block_count = 3) receives a proof-of-work
valid block of index 3 whose parent hash matches the middle block of its
chain; broadcast adoption truncates the walk to three blocks while setting
block_count to 4, so the walk no longer visits block_count blocks. -/
theorem c7_walk_counterexample :
    WalkInv r7.chain
    ∧ ¬ WalkInv (broadcast_step r7 bXFix 0 11).chain
    ∧ (broadcast_step r7 bXFix 0 11).chain.block_count = 4
    ∧ (broadcast_step r7 bXFix 0 11).chain.blocks.length = 3 := by
  decide

/-- Claim C10, counterexample: for the tampered block `bTam` (stored merkle
root and hash predate the rewrite of its event), cloning and recomputing the
merkle root and hash does not reproduce the original fields, refuting the
round-trip claim for arbitrary blocks. -/
theorem c10_clone_counterexample :
    hash_block (calculate_merkle_root (clone_block bTam)) ≠ bTam
    ∧ (hash_block (calculate_merkle_root (clone_block bTam))).merkle_root
        ≠ bTam.merkle_root := by
  decide

/-- Claim C9: tamper_with_blockchain changes state exactly when the node is
malicious and active and the first non-genesis block of its chain has a first
event of type 1; in that case only that event data and digest are rewritten,
every other field of the block, every other event, every other block, the
staging block and the block count being left unchanged (the equality below
rewrites exactly the head event of the second walked block); in every other
case the node is returned unchanged. -/
theorem c9_tamper_frame (n : NodeState) :
    (∀ g b rest e0 es,
        n.is_malicious = true → n.is_active = true →
        n.chain.blocks = g :: b :: rest → b.events = e0 :: es → e0.type = 1 →
        tamper_with_blockchain n =
          { n with chain :=
              { n.chain with blocks :=
                  g :: { b with events :=
                    (hash_event { e0 with data := fraudData }) :: es } :: rest } })
    ∧ (¬ tamperCond n → tamper_with_blockchain n = n) := by
  constructor
  · intro g b rest e0 es hm ha hbs hev ht
    simp only [tamper_with_blockchain, hm, ha, and_self, if_true, hbs, hev, ht]
  · intro hnc
    by_cases hma : n.is_malicious = true ∧ n.is_active = true
    · rcases hbs : n.chain.blocks with _ | ⟨g, tl⟩
      · simp [tamper_with_blockchain, hma, hbs]
      rcases tl with _ | ⟨b, rest⟩
      · simp [tamper_with_blockchain, hma, hbs]
      rcases hev : b.events with _ | ⟨e0, es⟩
      · simp [tamper_with_blockchain, hma, hbs, hev]
      by_cases ht : e0.type = 1
      · exfalso
        apply hnc
        refine ⟨hma.1, hma.2, ?_⟩
        rw [hbs]
        simp only [hev, ht]
      · simp [tamper_with_blockchain, hma, hbs, hev, ht]
    · simp [tamper_with_blockchain, hma]

/-- Claim C9, witness: the tamper routine applied to the concrete malicious
node rewrites exactly the first event of its first non-genesis block. -/
theorem c9_tamper_witness :
    tamper_with_blockchain nodeM =
      { nodeM with chain := { nodeM.chain with blocks := [genFix, bTam] } } := by
  have h := (c9_tamper_frame nodeM).1 genFix bOne [] eFix [] rfl rfl rfl rfl rfl
  exact h

/-- Claim C8: add_event fails exactly when the block already holds
MAX_EVENTS = 100 events or a reallocation of the event buffer is attempted
and fails; a failure on a full block leaves the block unchanged; and the
event count of the result never exceeds MAX_EVENTS. -/
theorem c8_add_event_failure (b : Block) (ty : Int) (data ts : String)
    (allocOk : Bool) (hlen : b.events.length ≤ MAX_EVENTS) :
    ((add_event b ty data ts allocOk).2 = 0 ↔
      (b.events.length = MAX_EVENTS
        ∨ (b.event_capacity ≤ b.events.length ∧ allocOk = false)))
    ∧ (b.events.length = MAX_EVENTS → (add_event b ty data ts allocOk).1 = b)
    ∧ (add_event b ty data ts allocOk).1.events.length ≤ MAX_EVENTS := by
  by_cases h1 : b.events.length ≥ MAX_EVENTS
  · have h1' : b.events.length = MAX_EVENTS := le_antisymm hlen h1
    simp [add_event, h1, h1']
  · by_cases h2 : b.events.length ≥ b.event_capacity
    · by_cases h3 : allocOk
      · simp [add_event, h1, h2, h3, hash_block, calculate_merkle_root]
        constructor
        · omega
        · omega
      · simp [add_event, h1, h2, h3]
        omega
    · simp [add_event, h1, h2, hash_block, calculate_merkle_root]
      constructor
      · omega
      · omega

/-- Claim C8, witness: appending to the concrete full staging block fails and
leaves the block unchanged. -/
theorem c8_add_event_witness :
    (add_event stagFull 1 "a" "t" true).2 = 0
    ∧ (add_event stagFull 1 "a" "t" true).1 = stagFull := by
  have h := c8_add_event_failure stagFull 1 "a" "t" true (by decide)
  exact ⟨h.1.mpr (Or.inl (by decide)), h.2.1 (by decide)⟩

/-- Helper: one unfolding step of the receiver walk. -/
theorem linkAfterMatch_cons (c : Block) (rest : List Block) (p : String)
    (nb : Block) :
    linkAfterMatch (c :: rest) p nb
      = if c.hash = p then some (c :: [nb])
        else
          match linkAfterMatch rest p nb with
          | none => none
          | some l => some (c :: l) := rfl

/-- Helper: the receiver walk finds no match exactly when no walked block
carries the parent hash. -/
theorem linkAfterMatch_none_iff (bs : List Block) (p : String) (nb : Block) :
    linkAfterMatch bs p nb = none ↔ ∀ C ∈ bs, C.hash ≠ p := by
  induction bs with
  | nil => simp [linkAfterMatch]
  | cons c rest ih =>
    simp only [linkAfterMatch, List.forall_mem_cons]
    by_cases h : c.hash = p
    · simp [h]
    · rw [if_neg h]
      cases hrec : linkAfterMatch rest p nb with
      | none => simpa [h] using ih.mp hrec
      | some l =>
        have hne : ¬ ∀ C ∈ rest, C.hash ≠ p := by
          intro hall
          rw [ih.mpr hall] at hrec
          exact Option.noConfusion hrec
        simp [h, hne]

/-- Helper: when the receiver walk finds a match, the new walk is the old one
cut after the first matching block, followed by the incoming clone. -/
theorem linkAfterMatch_some_eq (bs : List Block) (p : String) (nb : Block)
    (l : List Block) (h : linkAfterMatch bs p nb = some l) :
    l = bs.take (bs.findIdx (fun C => C.hash == p) + 1) ++ [nb] := by
  induction bs generalizing l with
  | nil => simp [linkAfterMatch] at h
  | cons c rest ih =>
    by_cases hc : c.hash = p
    · simp only [linkAfterMatch, if_pos hc] at h
      have hcp : (fun C => C.hash == p) c = true := by simp [hc]
      simp only [List.findIdx_cons, hcp, cond_true]
      simp at h
      simp [h.symm]
    · simp only [linkAfterMatch, if_neg hc] at h
      cases hrec : linkAfterMatch rest p nb with
      | none => rw [hrec] at h; exact Option.noConfusion h
      | some l2 =>
        rw [hrec] at h
        simp at h
        have hcp : (fun C => C.hash == p) c = false := by simp [hc]
        simp only [List.findIdx_cons, hcp, cond_false]
        rw [← h, ih l2 hrec]
        simp [List.take_cons]

/-- Claim C3: for an active receiver distinct from the sender, broadcast
extends the chain exactly when the incoming block passes proof of work and
event validation, some walked block carries its previous_hash, and its index
advances block_count; in that case the clone of the block is linked after the
first matching block, the tip becomes the clone, block_count becomes
B.index + 1 and a fresh staging block on the clone is installed; in every
other case the receiver is unchanged. -/
theorem c3_broadcast_adoption (r : NodeState) (B : Block) (s : Nat) (ts : Int)
    (hid : r.id ≠ s) (hact : r.is_active = true) :
    (¬ adoptCond r B → broadcast_step r B s ts = r)
    ∧ (adoptCond r B →
        broadcast_step r B s ts =
          { r with chain :=
              { blocks := r.chain.blocks.take
                    (r.chain.blocks.findIdx
                      (fun C => C.hash == B.previous_hash) + 1)
                  ++ [clone_block B],
                block_count := B.index + 1,
                current_mining_block :=
                  create_block (B.index + 1) (clone_block B).hash ts } })
    ∧ (adoptCond r B → broadcast_step r B s ts ≠ r) := by
  have hout : (r.id ≠ s ∧ r.is_active = true) := ⟨hid, hact⟩
  by_cases hv : is_valid_proof B DIFFICULTY = true
      ∧ validate_block_events B = true
  · cases hm : linkAfterMatch r.chain.blocks B.previous_hash (clone_block B) with
    | none =>
      have hnomatch : ∀ C ∈ r.chain.blocks, C.hash ≠ B.previous_hash :=
        (linkAfterMatch_none_iff _ _ _).mp hm
      have hnc : ¬ adoptCond r B := by
        rintro ⟨_, _, ⟨C, hC, hCh⟩, _⟩
        exact hnomatch C hC hCh
      refine ⟨fun _ => ?_, fun ha => absurd ha hnc, fun ha => absurd ha hnc⟩
      simp [broadcast_step, hout, hv, hm]
    | some newBlocks =>
      have hexists : ∃ C ∈ r.chain.blocks, C.hash = B.previous_hash := by
        by_contra hnone
        push_neg at hnone
        rw [(linkAfterMatch_none_iff _ _ _).mpr hnone] at hm
        exact Option.noConfusion hm
      by_cases hlen : B.index + 1 > r.chain.block_count
      · have hada : adoptCond r B := ⟨hv.1, hv.2, hexists, hlen⟩
        have hres : broadcast_step r B s ts =
            { r with chain :=
                { blocks := newBlocks, block_count := B.index + 1,
                  current_mining_block :=
                    create_block (B.index + 1) (clone_block B).hash ts } } := by
          simp [broadcast_step, hout, hv, hm, hlen]
        have hnb := linkAfterMatch_some_eq _ _ _ _ hm
        refine ⟨fun hna => absurd hada hna, fun _ => ?_, fun _ heq => ?_⟩
        · rw [hres, hnb]
        · rw [hres] at heq
          have hcount := congrArg (fun x => x.chain.block_count) heq
          simp at hcount
          omega
      · have hnc : ¬ adoptCond r B := by
          rintro ⟨_, _, _, hgt⟩
          exact hlen hgt
        refine ⟨fun _ => ?_, fun ha => absurd ha hnc, fun ha => absurd ha hnc⟩
        simp [broadcast_step, hout, hv, hm, hlen]
  · have hnc : ¬ adoptCond r B := by
      rintro ⟨h1, h2, _, _⟩
      exact hv ⟨h1, h2⟩
    refine ⟨fun _ => ?_, fun ha => absurd ha hnc, fun ha => absurd ha hnc⟩
    rcases Decidable.not_and_iff_or_not.mp hv with h1 | h2
    · simp [broadcast_step, hout, h1]
    · simp [broadcast_step, hout, h2]

/-- Claim C3, witness: the concrete receiver `rW` adopts the proof-of-work
valid block `b1Fix`: the clone is linked after genesis, the count becomes 2
and a fresh staging block on the clone is installed. -/
theorem c3_broadcast_witness :
    broadcast_step rW b1Fix 0 4 =
      { rW with chain :=
          { blocks := [genFix, clone_block b1Fix], block_count := 2,
            current_mining_block :=
              create_block 2 (clone_block b1Fix).hash 4 } } := by
  have h := (c3_broadcast_adoption rW b1Fix 0 4 (by decide) rfl).2.1 (by decide)
  rw [h]
  decide

/-- Claim C5: check_consensus returns true exactly when some node is active
and the active nodes whose walk contains a block with the hash of the queried
block make up at least the 0.51 fraction of the active nodes; in particular
it returns false when no node is active. -/
theorem c5_consensus_threshold (ns : List NodeState) (B : Block) :
    check_consensus ns B = true ↔
      (0 < ns.countP (fun n => n.is_active)
        ∧ 51 * ns.countP (fun n => n.is_active)
            ≤ 100 * ns.countP
                (fun n => n.is_active && chainHasBlockHash n.chain B.hash)) := by
  have hWA : ns.countP (fun n => n.is_active && chainHasBlockHash n.chain B.hash)
      ≤ ns.countP (fun n => n.is_active) := by
    apply List.countP_mono_left
    intro a _ h
    simp only [Bool.and_eq_true] at h
    exact h.1
  simp only [check_consensus, decide_eq_true_eq, ge_iff_le]
  rcases Nat.eq_zero_or_pos (ns.countP (fun n => n.is_active)) with hA | hA
  · have hW : ns.countP (fun n => n.is_active && chainHasBlockHash n.chain B.hash) = 0 := by
      omega
    rw [hA, hW]
    norm_num
  · have hAq : (0 : ℚ) < (ns.countP (fun n => n.is_active) : ℚ) := by
      exact_mod_cast hA
    rw [div_le_div_iff₀ (by norm_num) hAq]
    constructor
    · intro h
      refine ⟨hA, ?_⟩
      have h2 : (51 : ℚ) * (ns.countP (fun n => n.is_active) : ℚ)
          ≤ 100 * (ns.countP (fun n => n.is_active && chainHasBlockHash n.chain B.hash) : ℚ) := by
        linarith
      exact_mod_cast h2
    · rintro ⟨_, h⟩
      have h2 : (51 : ℚ) * (ns.countP (fun n => n.is_active) : ℚ)
          ≤ 100 * (ns.countP (fun n => n.is_active && chainHasBlockHash n.chain B.hash) : ℚ) := by
        exact_mod_cast h
      linarith

/-- Claim C5, witness: a one-node network whose single active node holds the
genesis fixture reaches consensus on it. -/
theorem c5_consensus_witness : check_consensus [rW] genFix = true :=
  (c5_consensus_threshold [rW] genFix).mpr (by decide)

/-- Claim C4: when the first append fails because the staging block is full,
add_blockchain_event detaches the full block, installs a fresh staging block
on the current tip, and (the mine of the detached block having succeeded at
some nonce n, which leaves its previous_hash untouched) links the detached
block as the new tip with block_count incremented exactly when the tip hash
still equals the previous_hash of the detached block, discarding it
otherwise; it then retries the append on the staging block current at that
moment, and the returned value is the result of that final append.  The
functions i1 and i2 stand for the effect of other threads during the two
windows in which the chain lock is released. -/
theorem c4_blockfull_recovery (c : Blockchain) (ty : Int) (d ts1 : String)
    (a1 : Bool) (tsS : Int) (n : Nat) (i1 i2 : Blockchain → Blockchain)
    (ts2 : String) (a2 : Bool)
    (hfull : MAX_EVENTS ≤ c.current_mining_block.events.length) :
    (add_event c.current_mining_block ty d ts1 a1).2 = 0
    ∧ (add_event c.current_mining_block ty d ts1 a1).1 = c.current_mining_block
    ∧ (mineFinalize c.current_mining_block n).previous_hash
        = c.current_mining_block.previous_hash
    ∧ (let old := c.current_mining_block
       let mined := mineFinalize old n
       let c1 : Blockchain :=
         { c with current_mining_block :=
             create_block c.block_count (chainTip c).hash tsS }
       let c2 := i1 c1
       let c3 :=
         if (chainTip c2).hash = mined.previous_hash then
           { c2 with
             blocks := c2.blocks ++ [mined]
             block_count := c2.block_count + 1 }
         else c2
       let c4 := i2 c3
       let fin := add_event c4.current_mining_block ty d ts2 a2
       add_blockchain_event c ty d ts1 a1 tsS (some mined) i1 i2 ts2 a2
           = ({ c4 with current_mining_block := fin.1 }, fin.2)
       ∧ ((chainTip c2).hash = mined.previous_hash →
            c3.blocks = c2.blocks ++ [mined]
            ∧ c3.block_count = c2.block_count + 1)
       ∧ ((chainTip c2).hash ≠ mined.previous_hash → c3 = c2)) := by
  have hf : add_event c.current_mining_block ty d ts1 a1
      = (c.current_mining_block, 0) := by
    simp [add_event, hfull]
  refine ⟨by rw [hf], by rw [hf], by simp [mineFinalize, hash_block, calculate_merkle_root], ?_⟩
  refine ⟨?_, ?_, ?_⟩
  · simp only [add_blockchain_event, hf, if_true]
  · intro hrace
    simp [hrace]
  · intro hrace
    simp [hrace]

/-- Claim C4, witness: on the concrete chain with a full staging block, the
recovery path runs end to end and the returned value is the result of the
final append, which succeeds on the fresh staging block. -/
theorem c4_recovery_witness :
    (add_blockchain_event chainFull 1 "a" "t" true 5
        (some (mineFinalize chainFull.current_mining_block 0)) id id "u" true).2
      = 1 := by
  have h := c4_blockfull_recovery chainFull 1 "a" "t" true 5 0 id id "u" true
    (by decide)
  rw [h.2.2.2.1]
  decide

/-- Helper: the spec-level root of an empty list is the all-zero sentinel. -/
theorem merkleSpec_nil : merkleSpec [] = zeros64 := by
  rw [merkleSpec.eq_def]
  simp

/-- Helper: the spec-level root of a single leaf is that leaf. -/
theorem merkleSpec_singleton (d : String) : merkleSpec [d] = d := by
  rw [merkleSpec.eq_def]
  simp

/-- Helper: the spec-level root of at least two leaves is the digest of the
two subtree roots, the right half being non-empty at this midpoint split. -/
theorem merkleSpec_ge2 (ds : List String) (h2 : 2 ≤ ds.length) :
    merkleSpec ds
      = hash_data (merkleSpec (ds.take ((ds.length - 1) / 2 + 1))
          ++ merkleSpec (ds.drop ((ds.length - 1) / 2 + 1))) := by
  have hne : (ds.drop ((ds.length - 1) / 2 + 1)).isEmpty = false := by
    have hpos : 0 < (ds.drop ((ds.length - 1) / 2 + 1)).length := by
      rw [List.length_drop]
      omega
    rcases hn : ds.drop ((ds.length - 1) / 2 + 1) with _ | _
    · rw [hn] at hpos
      simp at hpos
    · simp
  rw [merkleSpec.eq_def]
  rw [dif_neg (by omega), dif_neg (by omega)]
  simp [hne]

/-- Helper: build_tree_fuel on a range [s, e] inside the list, given enough
fuel, computes the spec-level recursive-midpoint root of the corresponding
slice. -/
theorem build_tree_fuel_spec (fuel : Nat) (hs : List String) (s e : Nat)
    (hse : s ≤ e) (he : e < hs.length) (hf : e - s < fuel) :
    build_tree_fuel fuel hs s e
      = some (merkleSpec ((hs.drop s).take (e + 1 - s))) := by
  induction fuel generalizing s e with
  | zero => omega
  | succ fuel ih =>
    rcases Nat.eq_or_lt_of_le hse with heq | hlt
    · subst heq
      have h1 : s + 1 - s = 1 := by omega
      have hdrop : hs.drop s = hs.getD s "" :: hs.drop (s + 1) := by
        rw [List.getD_eq_getElem hs "" he]
        exact List.drop_eq_getElem_cons he
      have hbase : build_tree_fuel (fuel + 1) hs s s = some (hs.getD s "") := by
        simp [build_tree_fuel]
      rw [hbase, h1, hdrop, List.take_succ_cons, List.take_zero,
        merkleSpec_singleton]
    · have hL := ih s ((s + e) / 2) (by omega) (by omega) (by omega)
      have hR := ih ((s + e) / 2 + 1) e (by omega) he (by omega)
      have hlen : ((hs.drop s).take (e + 1 - s)).length = e + 1 - s := by
        rw [List.length_take, List.length_drop]
        omega
      have htake : ((hs.drop s).take (e + 1 - s)).take ((e + 1 - s - 1) / 2 + 1)
          = (hs.drop s).take ((s + e) / 2 + 1 - s) := by
        have e3 : min ((e + 1 - s - 1) / 2 + 1) (e + 1 - s)
            = (s + e) / 2 + 1 - s := by omega
        rw [List.take_take, e3]
      have hdrop2 : ((hs.drop s).take (e + 1 - s)).drop ((e + 1 - s - 1) / 2 + 1)
          = (hs.drop ((s + e) / 2 + 1)).take (e + 1 - ((s + e) / 2 + 1)) := by
        have e1 : e + 1 - s - ((e + 1 - s - 1) / 2 + 1)
            = e + 1 - ((s + e) / 2 + 1) := by omega
        have e2 : s + ((e + 1 - s - 1) / 2 + 1) = (s + e) / 2 + 1 := by omega
        rw [List.drop_take, List.drop_drop, e1, e2]
      simp only [build_tree_fuel]
      rw [if_neg (by omega), if_neg (by omega)]
      rw [merkleSpec_ge2 ((hs.drop s).take (e + 1 - s)) (by rw [hlen]; omega),
        hlen, htake, hdrop2]
      rw [hL, hR]
      simp

/-- Helper: build_tree over the whole index range computes the spec-level
root of the whole leaf list. -/
theorem build_tree_spec (hs : List String) (hne : hs ≠ []) :
    build_tree hs 0 (hs.length - 1) = some (merkleSpec hs) := by
  have hlen : 0 < hs.length := List.length_pos.mpr hne
  have h := build_tree_fuel_spec hs.length hs 0 (hs.length - 1)
    (by omega) (by omega) (by omega)
  have hfuel : hs.length - 1 + 1 - 0 = hs.length := by omega
  rw [build_tree, hfuel, h]
  rw [List.drop_zero, hfuel, List.take_length]

/-- Claim C2: calculate_merkle_root computes exactly the recursive-midpoint
root of the event digests as described by the spec (split at
mid = (start + end) / 2, duplicate the left root when the right half is
absent, inner digest of the concatenation of the child digests); in
particular a one-event block gets the digest of that event, a two-event block
the digest of the two concatenated digests, and an empty block the all-zero
sentinel. -/
theorem c2_merkle_root (b : Block) :
    (calculate_merkle_root b).merkle_root
        = merkleSpec (b.events.map (fun e => e.hash))
    ∧ (b.events = [] → (calculate_merkle_root b).merkle_root = zeros64)
    ∧ (∀ e0, b.events = [e0] →
        (calculate_merkle_root b).merkle_root = e0.hash)
    ∧ (∀ e0 e1, b.events = [e0, e1] →
        (calculate_merkle_root b).merkle_root
          = hash_data (e0.hash ++ e1.hash)) := by
  have hmain : (calculate_merkle_root b).merkle_root
      = merkleSpec (b.events.map (fun e => e.hash)) := by
    rcases hev : b.events with _ | ⟨e, es⟩
    · simp [calculate_merkle_root, merkleRootOf, hev, merkleSpec_nil]
    · have hne : b.events.map (fun e => e.hash) ≠ [] := by simp [hev]
      simp only [calculate_merkle_root, merkleRootOf]
      rw [if_neg (by simp [hev]), build_tree_spec _ hne]
      simp only [Option.getD_some]
      rw [hev]
  refine ⟨hmain, ?_, ?_, ?_⟩
  · intro h
    rw [hmain, h, List.map_nil, merkleSpec_nil]
  · intro e0 h
    rw [hmain, h]
    simp only [List.map_cons, List.map_nil]
    rw [merkleSpec_singleton]
  · intro e0 e1 h
    rw [hmain, h]
    simp only [List.map_cons, List.map_nil]
    rw [merkleSpec_ge2 _ (by simp)]
    norm_num
    rw [merkleSpec_singleton, merkleSpec_singleton]

/-- Claim C2, witness: the merkle root of the concrete one-event block `bOne`
is the digest of its single event. -/
theorem c2_merkle_witness :
    (calculate_merkle_root bOne).merkle_root = eFix.hash :=
  (c2_merkle_root bOne).2.2.1 eFix rfl

/-- Helper: a printf hex digit is the character 0 or a character strictly
above it in code. -/
theorem hexDigit_zero_or_gt (k : Nat) :
    hexDigit k = '0' ∨ 48 < (hexDigit k).toNat := by
  rcases Nat.lt_or_ge k 16 with h | h
  · interval_cases k <;> decide
  · left
    unfold hexDigit
    have hlen : ("0123456789abcdef".toList).length ≤ k := by
      simpa using h
    exact List.getD_eq_default _ _ hlen

/-- Helper: when the strncmp success test of the mining loop accepts a
hash_data digest at difficulty 2, the digest begins with two zeros (no hex
character sorts strictly below the character 0). -/
theorem hash_data_take2 (str : String)
    (h : strncmpChars (hash_data str).toList (powTarget 2) 2 ≤ 0) :
    (hash_data str).toList.take 2 = ['0', '0'] := by
  obtain ⟨a, b, t, hd, ha, hb⟩ :
      ∃ a b t, (hash_data str).toList = a :: b :: t
        ∧ (a = '0' ∨ 48 < a.toNat) ∧ (b = '0' ∨ 48 < b.toNat) :=
    ⟨_, _, _, rfl, hexDigit_zero_or_gt _, hexDigit_zero_or_gt _⟩
  have hp : powTarget 2 = '0' :: '0' :: List.replicate 62 'f' := rfl
  rw [hd, hp] at h
  rw [hd]
  rcases ha with ha | ha
  · rcases hb with hb | hb
    · rw [ha, hb]
      rfl
    · exfalso
      subst ha
      have hbne : b ≠ '0' := by
        intro hbe
        rw [hbe] at hb
        exact absurd hb (by decide)
      simp only [strncmpChars, if_pos rfl, if_neg hbne, if_true] at h
      have h48 : ('0' : Char).toNat = 48 := by decide
      rw [h48] at h
      omega
  · exfalso
    have hane : a ≠ '0' := by
      intro hae
      rw [hae] at ha
      exact absurd ha (by decide)
    simp only [strncmpChars, if_neg hane, if_true] at h
    have h48 : ('0' : Char).toNat = 48 := by decide
    rw [h48] at h
    omega

/-- Claim C1, amended: every block a receiver adopts through broadcast
satisfies the proof-of-work predicate at DIFFICULTY = 2 (the guard checks the
incoming block and the adopted tip is its clone, with the same hash), and
every candidate accepted by the strncmp difficulty test of the main mining
loop satisfies it; blocks committed by confirm_block and blocks accepted
through the 1-percent lucky-find branch of mine_block are exempt (see the
counterexample). -/
theorem c1_amended_pow :
    (∀ (r : NodeState) (B : Block) (s : Nat) (ts : Int),
        broadcast_step r B s ts ≠ r →
        is_valid_proof B DIFFICULTY = true
        ∧ is_valid_proof (chainTip (broadcast_step r B s ts).chain)
            DIFFICULTY = true)
    ∧ (∀ (b : Block) (n : Nat), mineNormalHit b n = true →
        is_valid_proof (mineFinalize b n) DIFFICULTY = true) := by
  constructor
  · intro r B s ts hne
    by_cases hout : (r.id ≠ s ∧ r.is_active = true)
    · by_cases hv : (is_valid_proof B DIFFICULTY = true
          ∧ validate_block_events B = true)
      · cases hm : linkAfterMatch r.chain.blocks B.previous_hash
            (clone_block B) with
        | none =>
          exfalso
          apply hne
          simp [broadcast_step, hout, hv, hm]
        | some newBlocks =>
          by_cases hlen : B.index + 1 > r.chain.block_count
          · have hres : broadcast_step r B s ts =
                { r with chain :=
                    { blocks := newBlocks, block_count := B.index + 1,
                      current_mining_block :=
                        create_block (B.index + 1) (clone_block B).hash ts } } := by
              simp [broadcast_step, hout, hv, hm, hlen]
            refine ⟨hv.1, ?_⟩
            rw [hres]
            have hnb := linkAfterMatch_some_eq _ _ _ _ hm
            simp only [chainTip]
            rw [hnb, List.getLastD_concat]
            exact hv.1
          · exfalso
            apply hne
            simp [broadcast_step, hout, hv, hm, hlen]
      · exfalso
        apply hne
        rcases Decidable.not_and_iff_or_not.mp hv with h1 | h2
        · simp [broadcast_step, hout, h1]
        · simp [broadcast_step, hout, h2]
    · exfalso
      apply hne
      simp [broadcast_step, hout]
  · intro b n h
    unfold mineNormalHit at h
    rw [decide_eq_true_iff] at h
    unfold is_valid_proof
    rw [decide_eq_true_iff]
    exact hash_data_take2 _ h

/-- Claim C1, witness: the concrete receiver `rW` adopts `b1Fix` and the
adopted tip satisfies proof of work, and the concrete candidate block mined
at nonce 0 accepted by the strncmp test satisfies proof of work. -/
theorem c1_pow_witness :
    is_valid_proof (chainTip (broadcast_step rW b1Fix 0 4).chain)
        DIFFICULTY = true
    ∧ is_valid_proof (mineFinalize (create_block 1 genFix.hash 232) 0)
        DIFFICULTY = true :=
  ⟨(c1_amended_pow.1 rW b1Fix 0 4 (by decide)).2,
   c1_amended_pow.2 (create_block 1 genFix.hash 232) 0 (by decide)⟩

/-- Helper: when no block before the tip carries the parent hash, the
receiver walk either finds nothing or appends the clone after the tip. -/
theorem linkAfterMatch_tip (bs : List Block) (p : String) (nb : Block)
    (h : ∀ C ∈ bs.dropLast, C.hash ≠ p) :
    linkAfterMatch bs p nb = none
    ∨ linkAfterMatch bs p nb = some (bs ++ [nb]) := by
  induction bs with
  | nil => left; rfl
  | cons c rest ih =>
    cases rest with
    | nil =>
      by_cases hc : c.hash = p
      · right
        simp [linkAfterMatch, hc]
      · left
        simp [linkAfterMatch, hc]
    | cons c2 rest2 =>
      have hcne : c.hash ≠ p := h c (by simp)
      have hrest : ∀ C ∈ (c2 :: rest2).dropLast, C.hash ≠ p := by
        intro C hC
        exact h C (by simp [hC])
      rcases ih hrest with hnone | hsome
      · left
        rw [linkAfterMatch_cons, if_neg hcne, hnone]
      · right
        rw [linkAfterMatch_cons, if_neg hcne, hsome]
        rfl

/-- Claim C7, amended: the walk invariant (the walk from genesis is non-empty
and visits exactly block_count blocks, ending at the tip) is established by
chain creation and preserved by confirm, by the event append including its
BlockFull recovery path (provided the concurrent interference in the
lock-free windows preserves it), by the worker commit and by synchronize;
broadcast adoption preserves it provided the matched parent is the receiver
tip (no earlier walked block carries the parent hash) and the incoming index
equals the receiver block_count; when the parent matches strictly inside the
chain the walk is truncated while block_count is set to B.index + 1 (see the
counterexample). -/
theorem c7_walk_preservation :
    (∀ ts0 ts1 : Int, WalkInv (create_blockchain ts0 ts1))
    ∧ (∀ (c : Blockchain) (ts : Int), WalkInv c → WalkInv (confirm_block c ts))
    ∧ (∀ (c : Blockchain) (ty : Int) (d ts1 : String) (a1 : Bool) (tsS : Int)
        (mineRes : Option Block) (i1 i2 : Blockchain → Blockchain)
        (ts2 : String) (a2 : Bool),
        WalkInv c → (∀ x, WalkInv x → WalkInv (i1 x)) →
        (∀ x, WalkInv x → WalkInv (i2 x)) →
        WalkInv (add_blockchain_event c ty d ts1 a1 tsS mineRes i1 i2 ts2 a2).1)
    ∧ (∀ (c : Blockchain) (mined : Block) (ts : Int),
        WalkInv c → WalkInv (worker_commit c mined ts))
    ∧ (∀ (peer : Blockchain) (ts : Int), peer.blocks ≠ [] →
        WalkInv (synchronize_adopt peer ts))
    ∧ (∀ (r : NodeState) (B : Block) (s : Nat) (ts : Int),
        WalkInv r.chain →
        (∀ C ∈ r.chain.blocks.dropLast, C.hash ≠ B.previous_hash) →
        B.index = r.chain.block_count →
        WalkInv (broadcast_step r B s ts).chain) := by
  refine ⟨?_, ?_, ?_, ?_, ?_, ?_⟩
  · intro ts0 ts1
    constructor
    · simp [create_blockchain]
    · simp [create_blockchain]
  · intro c ts hc
    constructor
    · simp [confirm_block]
    · simp [confirm_block, hc.2]
  · intro c ty d ts1 a1 tsS mineRes i1 i2 ts2 a2 hc hi1 hi2
    by_cases h0 : (add_event c.current_mining_block ty d ts1 a1).2 = 0
    · cases mineRes with
      | none =>
        simp only [add_blockchain_event, h0, if_pos]
        exact hi1 _ hc
      | some mined =>
        simp only [add_blockchain_event, h0, if_pos]
        set c1 : Blockchain :=
          { c with current_mining_block :=
              create_block c.block_count (chainTip c).hash tsS } with hc1
        have hc2 : WalkInv (i1 c1) := hi1 _ hc
        by_cases hrace : (chainTip (i1 c1)).hash = mined.previous_hash
        · rw [if_pos hrace]
          refine hi2 _ ?_
          constructor
          · simp
          · simp [hc2.2]
        · rw [if_neg hrace]
          exact hi2 _ hc2
    · simp only [add_blockchain_event, if_neg h0]
      exact hc
  · intro c mined ts hc
    unfold worker_commit
    by_cases hrace : (chainTip c).hash = mined.previous_hash
    · rw [if_pos hrace]
      constructor
      · simp
      · simp [hc.2]
    · rw [if_neg hrace]
      exact hc
  · intro peer ts hne
    constructor
    · simp [synchronize_adopt, hne]
    · simp [synchronize_adopt]
  · intro r B s ts hc hdl hidx
    by_cases hout : (r.id ≠ s ∧ r.is_active = true)
    · by_cases hv : (is_valid_proof B DIFFICULTY = true
          ∧ validate_block_events B = true)
      · cases hm : linkAfterMatch r.chain.blocks B.previous_hash
            (clone_block B) with
        | none =>
          simpa [broadcast_step, hout, hv, hm] using hc
        | some newBlocks =>
          rcases linkAfterMatch_tip r.chain.blocks B.previous_hash
              (clone_block B) hdl with hnone | htip
          · rw [hnone] at hm
            exact Option.noConfusion hm
          · rw [htip] at hm
            have hnb : newBlocks = r.chain.blocks ++ [clone_block B] :=
              (Option.some.injEq _ _ ▸ hm).symm
            by_cases hlen : B.index + 1 > r.chain.block_count
            · have hres : broadcast_step r B s ts =
                  { r with chain :=
                      { blocks := newBlocks, block_count := B.index + 1,
                        current_mining_block :=
                          create_block (B.index + 1) (clone_block B).hash ts } } := by
                simp [broadcast_step, hout, hv, htip, hlen, hnb]
              rw [hres]
              constructor
              · simp [hnb]
              · simp [hnb, hc.2, hidx]
            · simpa [broadcast_step, hout, hv, htip, hlen] using hc
      · rcases Decidable.not_and_iff_or_not.mp hv with h1 | h2
        · simpa [broadcast_step, hout, h1] using hc
        · simpa [broadcast_step, hout, h2] using hc
    · simpa [broadcast_step, hout] using hc

/-- Claim C7, witness: the walk invariant holds for a fresh chain and is kept
by a confirm on it. -/
theorem c7_walk_witness : WalkInv (confirm_block (create_blockchain 0 0) 0) :=
  c7_walk_preservation.2.1 (create_blockchain 0 0) 0
    (c7_walk_preservation.1 0 0)

/-- Claim C10, amended: for every block whose stored merkle_root is the
merkle root of its events and whose stored hash is the block digest of its
header fields, cloning and then recomputing merkle_root and hash reproduces
every field of the original bitwise (the clone being a detached copy);
blocks whose stored fields are stale, such as a tampered block, are excluded
(see the counterexample). -/
theorem c10_clone_roundtrip (b : Block)
    (hm : b.merkle_root = merkleRootOf (b.events.map (fun e => e.hash)))
    (hh : b.hash = blockHashOf b) :
    hash_block (calculate_merkle_root (clone_block b)) = b := by
  have hclone : clone_block b = b := rfl
  rw [hclone]
  have hcm : calculate_merkle_root b = b := by
    unfold calculate_merkle_root
    rw [← hm]
  rw [hcm]
  unfold hash_block
  rw [← hh]

/-- Claim C10, witness: the clone round-trip reproduces the genesis fixture,
whose stored merkle root and hash are consistent by construction. -/
theorem c10_clone_witness :
    hash_block (calculate_merkle_root (clone_block genFix)) = genFix :=
  c10_clone_roundtrip genFix (by decide) (by decide)

end BC
